import Mathlib

/-!
Verification development for the RSS news-curation pipeline in
`scripts/fetch.mjs`.  The JavaScript source is shallowly embedded: every
pure function of the script becomes a Lean function over `String` /
`List Char`, and the platform primitives the script relies on
(`String.prototype.includes`, `toLowerCase`, `new URL(u).hostname`,
regular-expression tests) are modelled by executable structural
recursions on character lists.  Machine integers do not occur in the
script (all arithmetic is on small array indices and counts), so Nat/Int
are used directly.
-/

/-! ### Models of the JavaScript string primitives -/

/-- ASCII lower-casing of a single character, the model of what
`String.prototype.toLowerCase` does on the ASCII range (the script only
compares against ASCII vocabulary, so the non-ASCII behaviour is
irrelevant to every claim). -/
def asciiLower (c : Char) : Char :=
  if 'A' ≤ c ∧ c ≤ 'Z' then Char.ofNat (c.toNat + 32) else c

/-- ASCII upper-casing, the model of `String.prototype.toUpperCase` on
the ASCII range. -/
def asciiUpper (c : Char) : Char :=
  if 'a' ≤ c ∧ c ≤ 'z' then Char.ofNat (c.toNat - 32) else c

/-- Model of `s.toLowerCase()`. -/
def jsToLower (s : String) : String := String.mk (s.data.map asciiLower)

/-- Model of `s.toUpperCase()`. -/
def jsToUpper (s : String) : String := String.mk (s.data.map asciiUpper)

/-- Does `l` start with `needle`? (helper for the substring test). -/
def listStartsWith : List Char → List Char → Bool
  | _, [] => true
  | [], _ :: _ => false
  | c :: cs, d :: ds => c == d && listStartsWith cs ds

/-- Does `hay` contain `needle` as a contiguous subsequence?  This is
the model of `String.prototype.includes` (on `hasSub [] needle` the
answer is `needle.isEmpty`, matching `"".includes("") === true`). -/
def hasSub (hay needle : List Char) : Bool :=
  match hay with
  | [] => needle.isEmpty
  | _ :: rest => listStartsWith hay needle || hasSub rest needle

/-- Model of `s.includes(sub)`. -/
def jsIncludes (s sub : String) : Bool := hasSub s.data sub.data

/-- Model of the JavaScript falsy-string fallback `a || b` (the empty
string is falsy). -/
def jsOr (a b : String) : String := if a = "" then b else a

/-- An optional raw-entry field read as JavaScript sees it: `undefined`
becomes the empty (falsy) string. -/
def optStr (o : Option String) : String := o.getD ""

/-- Model of the hostname component of `new URL(u)` for the URL shapes
that occur in feeds: the authority is what follows the first `"://"`,
up to the first `/`, `?`, `#` or `:`; hostnames are lower-cased by the
URL parser.  A string with no `"://"` makes the constructor throw, which
the script converts to `''` — modelled as returning `""`.  (Userinfo
syntax is not modelled; no claim depends on it.) -/
def afterSep (sep : List Char) : List Char → Option (List Char)
  | [] => none
  | c :: rest =>
    if listStartsWith (c :: rest) sep then some ((c :: rest).drop sep.length)
    else afterSep sep rest

/-- `hostname(u)` from the script: `new URL(u).hostname.toLowerCase()`
with `''` on parse failure. -/
def hostname (u : String) : String :=
  match afterSep "://".data u.data with
  | none => ""
  | some rest =>
    String.mk ((rest.takeWhile
      (fun c => !(c == '/' || c == '?' || c == '#' || c == ':'))).map asciiLower)

/-! ### Data model -/

/-- The canonical `Item` produced by `toItem`. -/
structure Item where
  title : String
  link : String
  isoDate : String
  source : String
  raw : String
deriving DecidableEq

/-- An item after the enrichment stage of `run` (summary and topics
added). -/
structure EnrichedItem where
  title : String
  link : String
  isoDate : String
  source : String
  raw : String
  summary : String
  topics : List String
deriving DecidableEq

/-- A derived hashtag `{label, url}`. -/
structure Hashtag where
  label : String
  url : String
deriving DecidableEq

/-- A ticker entry `{text, link}`. -/
structure TickerEntry where
  text : String
  link : String
deriving DecidableEq

/-! ### Relevance-filter configuration (MR FILTERS section of the script) -/

/-- `POSITIVE_MR` from the script (already lower-case, so the
`.map(s => s.toLowerCase())` in the source is the identity on it). -/
def POSITIVE_MR : List String :=
  ["market research", "consumer insight", "consumer insights", "mrx",
   "survey", "surveys", "questionnaire", "panel", "panellist", "sample",
   "focus group", "fgd", "qualitative", "quantitative", "ethnography", "idi",
   "in-depth interview", "discussion guide", "concept test", "copy test",
   "ad test", "ad testing", "conjoint", "segmentation", "maxdiff",
   "van westendorp", "gabor granger", "cx", "customer experience", "nps",
   "csat", "esomar", "gritm", "insight platform", "fieldwork", "cati",
   "cawi", "capi", "online community", "diary study", "usability test",
   "card sort", "tree test"]

/-- `NEGATIVE_GENERIC` from the script. -/
def NEGATIVE_GENERIC : List String :=
  ["forecast", "forecasts", "cagr", "market size", "usd", "billion",
   "million", "2024", "2025", "2026", "2027", "2028", "2029", "2030",
   "researchandmarkets", "openpr", "industrytoday", "globenewswire",
   "prnewswire", "financialcontent", "yahoo finance", "seeking alpha"]

/-- `SOURCE_WHITELIST` from the script. -/
def SOURCE_WHITELIST : List String :=
  ["research-live.com", "www.research-live.com",
   "quirks.com", "www.quirks.com",
   "mrweb.com", "www.mrweb.com"]

/-- `isMRStory` from the script.  At its call site (`dedupeSort(...)
.filter(isMRStory)`) the argument is an `Item`, which has no `summary`
field, so the source's `item.raw || item.summary || ''` evaluates to
`item.raw` when it is truthy and to `''` otherwise — i.e. to
`item.raw` itself. -/
def isMRStory (item : Item) : Bool :=
  let title := jsToLower item.title
  let sum := jsToLower item.raw
  let text := title ++ " " ++ sum
  if NEGATIVE_GENERIC.any (fun neg => jsIncludes text neg) then false
  else if SOURCE_WHITELIST.contains (hostname item.link) then true
  else POSITIVE_MR.any (fun pos => jsIncludes text pos)

/-! ### Topic taxonomy and classifier -/

/-- `TOPICS` from the script, as an ordered association list (JavaScript
object literals enumerate string keys in declaration order). -/
def TOPICS : List (String × List String) :=
  [("AI in MR",
    ["ai", "artificial intelligence", "genai", "gpt", "generative", "llm",
     "machine learning", "ml", "nlp", "langchain", "vector db", "rag",
     "openai", "anthropic", "gemini"]),
   ("CX",
    ["cx", "customer experience", "nps", "csat", "customer satisfaction",
     "customer service", "contact center", "call center", "journey",
     "touchpoint"]),
   ("Ad testing",
    ["ad test", "ad testing", "copy test", "creative test",
     "ad effectiveness", "brand lift", "pre-test", "pretest", "pre testing",
     "ad recall"]),
   ("B2B",
    ["b2b", "enterprise", "decision maker", "procurement",
     "it decision maker", "idm"]),
   ("Healthcare",
    ["healthcare", "pharma", "patient", "hcp", "clinical", "medical device",
     "medtech"]),
   ("Innovation in MR",
    ["innovation", "new methodology", "new method", "experimental", "agile",
     "mobile ethnography", "automation", "synthetic data", "digital behavior",
     "behavioral"]),
   ("Qualitative Research",
    ["qualitative", "focus group", "depth interview", "idi", "ethnography",
     "co-creation", "discussion guide", "transcript", "thematic"])]

/-- `tagTopics` from the script: iterate the taxonomy in declaration
order, pushing a topic on the first keyword hit (the inner loop's
`break` is the short-circuit of `List.any`). -/
def tagTopics (str : String) : List String :=
  let s := jsToLower str
  let hit := TOPICS.foldl
    (fun acc p => if p.2.any (fun kw => jsIncludes s kw) then acc ++ [p.1] else acc) []
  if hit = [] then ["(Other)"] else hit

/-! ### Funding/M&A classifier -/

/-- JavaScript word character (`\w` = `[A-Za-z0-9_]`). -/
def isWordChar (c : Char) : Bool := c.isAlpha || c.isDigit || c == '_'

/-- After `series` and one whitespace character: permit further
whitespace (`\s+` is greedy), then require a letter in `a`–`e` followed
by a word boundary (`\b`). -/
def seriesTailWs : List Char → Bool
  | [] => false
  | c :: rest =>
    if c.isWhitespace then seriesTailWs rest
    else
      (decide ('a' ≤ c) && decide (c ≤ 'e')) &&
        (match rest with
         | [] => true
         | d :: _ => !isWordChar d)

/-- Does the regex alternative `series\s+[a-e]\b` match starting at this
position (of the already lower-cased text)? -/
def seriesAt (cs : List Char) : Bool :=
  listStartsWith cs "series".data &&
    (match cs.drop 6 with
     | [] => false
     | c :: rest => c.isWhitespace && seriesTailWs rest)

/-- Does `series\s+[a-e]\b` match anywhere in the text? -/
def seriesScan : List Char → Bool
  | [] => false
  | cs@(_ :: rest) => seriesAt cs || seriesScan rest

/-- The literal alternatives of the funding regex that precede the
`series\s+[a-e]\b` alternative, in source order. -/
def FUNDING_TERMS_A : List String := ["funding", "raises", "raised", "seed"]

/-- The literal alternatives that follow it, in source order. -/
def FUNDING_TERMS_B : List String :=
  ["acquire", "acquisition", "merger", "m&a", "buyout", "invests",
   "investment", "venture", "vc"]

/-- `r.test(s)` for the funding regex
`/(funding|raises|raised|seed|series\s+[a-e]\b|acquire|acquisition|merger|m&a|buyout|invests|investment|venture|vc)/i`:
the `i` flag is modelled by lower-casing the text (all alternatives are
already lower-case ASCII), and a literal alternative matches iff it is a
substring. -/
def isFundingText (s : String) : Bool :=
  let t := jsToLower s
  FUNDING_TERMS_A.any (fun lit => jsIncludes t lit) || seriesScan t.data ||
    FUNDING_TERMS_B.any (fun lit => jsIncludes t lit)

/-- `isFunding` from the script. -/
def isFunding (title summary : String) : Bool :=
  isFundingText title || isFundingText summary

/-! ### Summarizer (fallback strategy) -/

/-- `SUMMARY_MAX_CHARS` from the script. -/
def SUMMARY_MAX_CHARS : Nat := 240

/-- Model of `text.replace(/\s+/g, ' ')`: every maximal whitespace run
becomes a single space.  The flag records whether the previous character
was part of a whitespace run. -/
def collapseWsAux : Bool → List Char → List Char
  | _, [] => []
  | prevWs, c :: rest =>
    if c.isWhitespace then
      if prevWs then collapseWsAux true rest else ' ' :: collapseWsAux true rest
    else c :: collapseWsAux false rest

mutual
/-- Model of `.replace(/<\/?[^>]+(>|$)/g, '')`.  A match starts at `<`
followed by at least one non-`>` character (the optional `/` is itself a
non-`>` character, so it needs no separate case) and extends to the next
`>` (inclusive) or to the end of the string.  `<` followed by `>` or by
nothing does not match and is kept. -/
def stripTags : List Char → List Char
  | [] => []
  | '<' :: rest =>
    match rest with
    | [] => ['<']
    | '>' :: rest2 => '<' :: '>' :: stripTags rest2
    | _ :: rest2 => stripTagsTail rest2
  | c :: rest => c :: stripTags rest

/-- Inside a tag body: skip to the closing `>` (or consume everything if
the string ends first, the `$` case of the regex). -/
def stripTagsTail : List Char → List Char
  | [] => []
  | '>' :: rest => stripTags rest
  | _ :: rest => stripTagsTail rest
end

/-- Model of `String.prototype.trim`. -/
def trimChars (cs : List Char) : List Char :=
  ((cs.dropWhile Char.isWhitespace).reverse.dropWhile Char.isWhitespace).reverse

/-- The `clean` value of `summarizeFallback`:
`text.replace(/\s+/g, ' ').replace(/<\/?[^>]+(>|$)/g, '').trim()`. -/
def cleanOf (text : String) : String :=
  String.mk (trimChars (stripTags (collapseWsAux false text.data)))

mutual
/-- Model of `clean.split(/(?<=[.?!])\s+/)`: a separator is a maximal
whitespace run whose first character is directly preceded by `.`, `?` or
`!`.  `prev` is the previous character (a non-sentence-ending sentinel
at the start), `acc` the current segment reversed. -/
def splitSentAux (prev : Char) (acc : List Char) : List Char → List (List Char)
  | [] => [acc.reverse]
  | c :: rest =>
    if c.isWhitespace && (prev == '.' || prev == '?' || prev == '!') then
      acc.reverse :: sentSkipWs rest
    else splitSentAux c (c :: acc) rest

/-- Consume the rest of a separator's whitespace run, then start the
next segment. -/
def sentSkipWs : List Char → List (List Char)
  | [] => [[]]
  | c :: rest => if c.isWhitespace then sentSkipWs rest else splitSentAux c [c] rest
end

/-- The sentence split of `summarizeFallback`. -/
def splitSentences (cs : List Char) : List (List Char) := splitSentAux ' ' [] cs

/-- Model of `Array.prototype.join(' ')`. -/
def joinSpace : List (List Char) → List Char
  | [] => []
  | [s] => s
  | s :: rest => s ++ ' ' :: joinSpace rest

/-- The `base` value of `summarizeFallback`: the first one-or-two
sentences, or `clean` itself when that join is empty (the `sentences ||
clean` fallback — the empty string is falsy). -/
def baseOf (text : String) : String :=
  let clean := cleanOf text
  let sentences := String.mk (joinSpace ((splitSentences clean.data).take 2))
  if sentences = "" then clean else sentences

/-- `summarizeFallback` from the script (always called with the default
`max = SUMMARY_MAX_CHARS`).  `base.slice(0, max - 1) + '…'` is the first
239 characters followed by the one-character ellipsis. -/
def summarizeFallback (text : String) : String :=
  if text = "" then ""
  else
    let base := baseOf text
    if base.length > SUMMARY_MAX_CHARS then
      String.mk (base.data.take (SUMMARY_MAX_CHARS - 1)) ++ "…"
    else base

/-! ### Entry normalizer -/

/-- A raw feed entry as handed over by `rss-parser`; every field may be
absent. -/
structure RawEntry where
  title : Option String
  link : Option String
  isoDate : Option String
  pubDate : Option String
  creator : Option String
  author : Option String
  contentSnippet : Option String
  summary : Option String
  content : Option String
deriving DecidableEq

/-- `toItem` from the script.  `now` is the capture-time timestamp
`new Date().toISOString()` used when both date fields are missing.  The
`source` computation never throws in this model (`hostname` returns `""`
on parse failure), which coincides with the source's catch branch
`entry.creator || entry.author || ''`. -/
def toItem (now : String) (entry : RawEntry) : Item :=
  let title := jsOr (optStr entry.title) "Untitled"
  let link := optStr entry.link
  let isoDate := jsOr (optStr entry.isoDate) (jsOr (optStr entry.pubDate) now)
  let host :=
    if link = "" then ""
    else
      let h := hostname link
      if listStartsWith h.data "www.".data then String.mk (h.data.drop 4) else h
  let source := jsOr host (jsOr (optStr entry.creator) (optStr entry.author))
  ⟨title, link, isoDate, source, jsOr (optStr entry.contentSnippet)
    (jsOr (optStr entry.summary) (optStr entry.content))⟩

/-! ### Deduplicator / sorter -/

/-- The dedup loop of `dedupeSort`: skip an item whose link is falsy
(empty) or already seen, otherwise keep it and record its link. -/
def dedupeAux (seen : List String) : List Item → List Item
  | [] => []
  | it :: rest =>
    if it.link = "" ∨ it.link ∈ seen then dedupeAux seen rest
    else it :: dedupeAux (it.link :: seen) rest

/-- The deduplicated (pre-sort) sequence. -/
def dedupLinks (all : List Item) : List Item := dedupeAux [] all

/-- Generic stable insertion: `le a b` means `a` may be placed before
`b` (the comparator reports `a` not-after `b`). -/
def insertLe {α : Type} (le : α → α → Bool) (a : α) : List α → List α
  | [] => [a]
  | b :: bs => if le a b then a :: b :: bs else b :: insertLe le a bs

/-- Generic stable insertion sort; models `Array.prototype.sort`, which
is required to be stable by the ECMAScript specification. -/
def sortLe {α : Type} (le : α → α → Bool) : List α → List α
  | [] => []
  | a :: as => insertLe le a (sortLe le as)

/-- The sort order of `dedupeSort`'s comparator
`(a, b) => new Date(b.isoDate) - new Date(a.isoDate)`: `a` stays before
`b` iff `b`'s date value does not exceed `a`'s (descending).  `dv`
abstracts the platform's date parser `s ↦ new Date(s).getTime()`. -/
def itemLe (dv : String → Int) (a b : Item) : Bool :=
  decide (dv b.isoDate ≤ dv a.isoDate)

/-- `dedupeSort` from the script: dedup by link (first wins), then
stable-sort by date descending.  `dv` abstracts date parsing. -/
def dedupeSort (dv : String → Int) (all : List Item) : List Item :=
  sortLe (itemLe dv) (dedupLinks all)

/-! ### Hashtag ranker -/

/-- The hashtag stop-word set `STOP` from the script. -/
def STOP : List String :=
  ["the", "a", "an", "and", "or", "to", "for", "of", "in", "on", "with",
   "from", "by", "as", "about", "at", "is", "are", "was", "were", "be",
   "been", "this", "that", "these", "those", "it", "its",
   "market", "research", "consumer", "insight", "insights", "study",
   "report", "reports", "forecast", "forecasts", "global", "expected",
   "growth", "industry", "analysis", "trend", "trends",
   "says", "saying", "reach", "reaches", "billion", "million", "usd", "us",
   "cagr", "percent", "year", "years", "2024", "2025", "2026", "2027",
   "2028", "2029", "2030",
   "globenewswire", "openpr", "industrytodaycouk", "industrytoday",
   "researchandmarkets", "businessstandard", "financialcontent",
   "prnewswire", "yahoo", "yahoofinance",
   "com", "newsgoogle", "google", "news", "press", "release"]

/-- The short-acronym allow-list `ALLOW_SHORT` from the script. -/
def ALLOW_SHORT : List String :=
  ["ai", "mr", "cx", "ux", "b2b", "b2c", "cpg", "d2c", "cxi", "nps"]

/-- The prefix of `l` before the first occurrence of `sep`; the whole
list when `sep` does not occur.  This is `t.split(sep).shift()` (the
script's `cleanTitle`). -/
def takeUntilSep (sep : List Char) : List Char → List Char
  | [] => []
  | c :: rest =>
    if listStartsWith (c :: rest) sep then []
    else c :: takeUntilSep sep rest

/-- `cleanTitle` from the script: `t.split(' - ').shift()`. -/
def cleanTitle (t : String) : String := String.mk (takeUntilSep " - ".data t.data)

/-- A character kept verbatim by `.replace(/[^a-z0-9\s#]/g, ' ')` (after
lower-casing): lower-case letter, digit or `#`. -/
def isTokChar (c : Char) : Bool :=
  (decide ('a' ≤ c) && decide (c ≤ 'z')) || (decide ('0' ≤ c) && decide (c ≤ '9')) || c == '#'

/-- Split on whitespace, discarding empty pieces — the composition
`split(/\s+/).filter(Boolean)` (leading separators in the JavaScript
split produce an empty first piece, which `filter(Boolean)` removes, so
collecting only the non-empty maximal runs is an exact model). -/
def splitWsAux (acc : List Char) : List Char → List String
  | [] => if acc.isEmpty then [] else [String.mk acc.reverse]
  | c :: rest =>
    if c.isWhitespace then
      if acc.isEmpty then splitWsAux [] rest
      else String.mk acc.reverse :: splitWsAux [] rest
    else splitWsAux (c :: acc) rest

/-- Split on whitespace, discarding empty pieces — the non-empty
maximal runs of non-whitespace characters. -/
def splitWsTokens (cs : List Char) : List String := splitWsAux [] cs

/-- The token list of one title:
`cleanTitle(it.title || '').toLowerCase().replace(/[^a-z0-9\s#]/g,' ').split(/\s+/).filter(Boolean)`. -/
def tokenizeTitle (t : String) : List String :=
  let lowered := jsToLower (cleanTitle t)
  let replaced := lowered.data.map (fun c => if isTokChar c || c.isWhitespace then c else ' ')
  splitWsTokens replaced

/-- `/^\d+$/`: non-empty and purely numeric. -/
def isNumericTok (w : String) : Bool :=
  !w.data.isEmpty && w.data.all (fun c => decide ('0' ≤ c) && decide (c ≤ '9'))

/-- A character allowed in the body of the domain/suffix regexes:
`[a-z0-9-]`. -/
def isBodyChar (c : Char) : Bool :=
  (decide ('a' ≤ c) && decide (c ≤ 'z')) || (decide ('0' ≤ c) && decide (c ≤ '9')) || c == '-'

/-- `/^[a-z0-9-]+\.com$/`: a bare domain name. -/
def isDomainTok (w : String) : Bool :=
  listStartsWith w.data.reverse ".com".data.reverse &&
    decide (4 < w.data.length) &&
    (w.data.take (w.data.length - 4)).all isBodyChar

/-- The trailing alternatives of `/^(?:[a-z0-9-]+)(?:co|uk|in|us|eu|de|fr|it)$/`. -/
def SUFFIX_FRAGS : List String := ["co", "uk", "in", "us", "eu", "de", "fr", "it"]

/-- `/^(?:[a-z0-9-]+)(?:co|uk|in|us|eu|de|fr|it)$/`: a non-empty
`[a-z0-9-]` body directly followed by a two-letter country/company
suffix.  (Each alternative has length two, so the body is everything but
the last two characters.) -/
def isSuffixFragTok (w : String) : Bool :=
  SUFFIX_FRAGS.any (fun suf =>
    listStartsWith w.data.reverse suf.data.reverse &&
      decide (2 < w.data.length) &&
      (w.data.take (w.data.length - 2)).all isBodyChar)

/-- The token-discarding tests of `makeHashtags`, in source order: a
token survives all three `continue`s iff this is `true`. -/
def hashtagTokenKept (w : String) : Bool :=
  !(!ALLOW_SHORT.contains w && (decide (w.length < 3) || isNumericTok w)) &&
    !STOP.contains w &&
    !isDomainTok w &&
    !isSuffixFragTok w

/-- `freq[w] = (freq[w] || 0) + 1` on an insertion-ordered table: the
first matching key is incremented, a missing key is appended with count
one.  (String keys of a JavaScript object literal that are not integer
indices — and no kept token is one, since purely numeric tokens are
discarded — enumerate in insertion order.) -/
def bump (m : List (String × Nat)) (w : String) : List (String × Nat) :=
  match m with
  | [] => [(w, 1)]
  | (k, v) :: rest => if k = w then (k, v + 1) :: rest else (k, v) :: bump rest w

/-- Lexicographic order on character lists (by code point), the model
of the total order `localeCompare` induces on the ranked tokens. -/
def lexLe : List Char → List Char → Bool
  | [], _ => true
  | _ :: _, [] => false
  | c :: cs, d :: ds => decide (c < d) || (c == d && lexLe cs ds)

/-- The ranking comparator of `makeHashtags`,
`(a, b) => (b[1] - a[1]) || a[0].localeCompare(b[0])`, as a
not-after relation: `a` stays before `b` iff `a` has strictly larger
count, or equal count and `a`'s token is not lexicographically after
`b`'s.  (`localeCompare` is modelled as ordinal comparison; the tokens
consist of `a-z0-9#` only, where the two agree.) -/
def entryLe (a b : String × Nat) : Bool :=
  decide (b.2 < a.2) || (decide (a.2 = b.2) && lexLe a.1.data b.1.data)

/-- The frequency table of `makeHashtags` over the given items. -/
def hashtagFreq (items : List EnrichedItem) : List (String × Nat) :=
  items.foldl
    (fun m it => ((tokenizeTitle it.title).filter hashtagTokenKept).foldl bump m) []

/-- Percent-encoding of one byte value. -/
def percentByte (n : Nat) : String :=
  let hexDigit := fun (k : Nat) =>
    if k < 10 then Char.ofNat ('0'.toNat + k) else Char.ofNat ('A'.toNat + (k - 10))
  String.mk ['%', hexDigit (n / 16 % 16), hexDigit (n % 16)]

/-- The UTF-8 bytes of a character (as Nats). -/
def utf8Bytes (c : Char) : List Nat :=
  let n := c.toNat
  if n < 128 then [n]
  else if n < 2048 then [192 + n / 64, 128 + n % 64]
  else if n < 65536 then [224 + n / 4096, 128 + n / 64 % 64, 128 + n % 64]
  else [240 + n / 262144, 128 + n / 4096 % 64, 128 + n / 64 % 64, 128 + n % 64]

/-- Model of `encodeURIComponent`: the unreserved characters
`A-Z a-z 0-9 - _ . ! ~ * ' ( )` pass through, everything else is
percent-encoded byte-wise. -/
def encodeURIComponent (s : String) : String :=
  String.mk (s.data.foldr
    (fun c acc =>
      if c.isAlphanum || c ∈ ['-', '_', '.', '!', '~', '*', '\'', '(', ')'] then c :: acc
      else (String.join ((utf8Bytes c).map percentByte)).data ++ acc) [])

/-- The rendering step of `makeHashtags`: allow-listed acronyms are
upper-cased in the label. -/
def renderHashtag (w : String) : Hashtag :=
  ⟨if ALLOW_SHORT.contains w then "#" ++ jsToUpper w else "#" ++ w,
   "https://x.com/search?q=%23" ++ encodeURIComponent w⟩

/-- `makeHashtags` from the script (the second, refined version):
tokenize titles, drop noise tokens, count, rank by the comparator,
curate (length ≥ 4 or allow-listed), cap at 20, render. -/
def makeHashtags (items : List EnrichedItem) : List Hashtag :=
  let ranked := (sortLe entryLe (hashtagFreq items)).map Prod.fst
  let curated :=
    (ranked.filter (fun w => decide (4 ≤ w.length) || ALLOW_SHORT.contains w)).take 20
  curated.map renderHashtag

/-! ### The run pipeline -/

/-- The enrichment of one item inside `run`: topic-tag the combined
title and raw text, and summarize `it.raw || it.title`.  `summarize`
abstracts `summarizeAI`; with no API key present it is
`summarizeFallback` for every item. -/
def enrich (summarize : String → String) (it : Item) : EnrichedItem :=
  ⟨it.title, it.link, it.isoDate, it.source, it.raw,
   summarize (jsOr it.raw it.title),
   tagTopics (it.title ++ " " ++ it.raw)⟩

/-- The output document `out` of `run`. -/
structure OutputDoc where
  generated_at : String
  topics_available : List String
  top_news : List EnrichedItem
  funding_ma : List EnrichedItem
  hashtags : List Hashtag
  ticker : List TickerEntry
deriving DecidableEq

/-- The pure core of `run` after feed collection: dedup, MR-filter,
enrich, and assemble the document. -/
def runPipeline (dv : String → Int) (summarize : String → String) (genAt : String)
    (collected : List Item) : OutputDoc :=
  let items := (dedupeSort dv collected).filter isMRStory
  let enriched := items.map (enrich summarize)
  let top_news := enriched.take 50
  let funding_ma := (enriched.filter (fun it => isFunding it.title it.summary)).take 50
  let ticker := (enriched.take 30).map (fun it => (⟨it.title, it.link⟩ : TickerEntry))
  ⟨genAt, TOPICS.map Prod.fst, top_news, funding_ma, makeHashtags top_news, ticker⟩

/-- The outcome of one feed's retrieval: the parsed entries, or the
error message caught by the `try`/`catch` in `run`'s feed loop. -/
abbrev FeedResult : Type := Except String (List RawEntry)

/-- The feed-collection loop of `run`: each feed's result is consumed
exactly once, in feed-list order; a successful feed appends its
normalized items to `collected`, a failed feed appends its message to
the error log (`console.error`) and contributes no items. -/
def collectFeeds (now : String) (results : List FeedResult) : List Item × List String :=
  results.foldl
    (fun acc r =>
      match r with
      | Except.ok entries => (acc.1 ++ entries.map (toItem now), acc.2)
      | Except.error msg => (acc.1, acc.2 ++ [msg]))
    ([], [])

/-- The whole run, from per-feed retrieval outcomes to the output
document. -/
def runFromFeeds (dv : String → Int) (summarize : String → String) (genAt now : String)
    (results : List FeedResult) : OutputDoc :=
  runPipeline dv summarize genAt (collectFeeds now results).1

/-! ### Claim-side definitions

These restate, in the words of the specification's claims, the
properties the source functions are compared against. -/

/-- The combined lower-cased filter text of an item, as the claims
describe it. -/
def mrFilterText (item : Item) : String :=
  jsToLower item.title ++ " " ++ jsToLower item.raw

/-- "the text contains a negative-vocabulary term". -/
def hasNegativeTerm (item : Item) : Bool :=
  NEGATIVE_GENERIC.any (fun neg => jsIncludes (mrFilterText item) neg)

/-- "the text contains a positive-vocabulary term". -/
def hasPositiveTerm (item : Item) : Bool :=
  POSITIVE_MR.any (fun pos => jsIncludes (mrFilterText item) pos)

/-- "the item's link hostname is in the trusted-source allow-list". -/
def isTrustedHost (item : Item) : Bool :=
  SOURCE_WHITELIST.contains (hostname item.link)

/-- The claim C5 vocabulary exactly as the claim lists it (note: it has
`invest` where the source regex has `invests`, and it lacks the source's
`raises`); `series [A-E]` is the same boundary pattern as the source's. -/
def CLAIM_FUNDING_TERMS : List String :=
  ["funding", "raised", "seed", "acquire", "acquisition", "merger", "m&a",
   "buyout", "invest", "investment", "venture", "vc"]

/-- Case-insensitive match of the claim C5 vocabulary against a text. -/
def claimFundingMatch (s : String) : Bool :=
  let t := jsToLower s
  CLAIM_FUNDING_TERMS.any (fun lit => jsIncludes t lit) || seriesScan t.data

/-- The amended funding vocabulary: the claim's list with `raises`
restored and `invest` corrected to `invests`, which is what the source
regex actually contains. -/
def AMENDED_FUNDING_TERMS : List String :=
  ["funding", "raises", "raised", "seed", "acquire", "acquisition",
   "merger", "m&a", "buyout", "invests", "investment", "venture", "vc"]

/-- Case-insensitive match of the amended vocabulary against a text. -/
def amendedFundingMatch (s : String) : Bool :=
  let t := jsToLower s
  AMENDED_FUNDING_TERMS.any (fun lit => jsIncludes t lit) || seriesScan t.data

/-- The topics whose keyword list hits the lower-cased input, in
taxonomy declaration order — claim C6's description. -/
def topicsOf (s : String) : List String :=
  (TOPICS.filter (fun p => p.2.any (fun kw => jsIncludes (jsToLower s) kw))).map Prod.fst

/-- Claim C4's reading of the token-discard rules: drop stop-words,
purely numeric tokens, tokens shorter than 3 characters unless
allow-listed, bare domain names, and country/company-suffix
fragments. -/
def claimTokenKeep (w : String) : Bool :=
  !STOP.contains w && !isNumericTok w &&
    !(decide (w.length < 3) && !ALLOW_SHORT.contains w) &&
    !isDomainTok w && !isSuffixFragTok w

/-- First-occurrence-ordered distinct elements (`seen` accumulates what
was already emitted). -/
def distinctAux (seen : List String) : List String → List String
  | [] => []
  | w :: rest =>
    if w ∈ seen then distinctAux seen rest else w :: distinctAux (w :: seen) rest

/-- The distinct tokens of a token stream, in first-occurrence order. -/
def distinctTokens (l : List String) : List String := distinctAux [] l

/-- Claim C4 as an algorithm: tokenize each title, discard per the
claim's rules, pair each distinct token with its frequency, rank with
the frequency-descending / lexicographic-ascending comparator, keep
length-≥-4 or allow-listed tokens, cap at 20, render. -/
def hashtagsSpec (items : List EnrichedItem) : List Hashtag :=
  let tks := items.flatMap (fun it => (tokenizeTitle it.title).filter claimTokenKeep)
  let table := (distinctTokens tks).map (fun w => (w, tks.count w))
  let ranked := (sortLe entryLe table).map Prod.fst
  ((ranked.filter (fun w => decide (4 ≤ w.length) || ALLOW_SHORT.contains w)).take 20).map
    renderHashtag

/-- First-match lookup in a frequency table, `0` when absent (the
JavaScript `freq[w] || 0`). -/
def tblGet (k : String) : List (String × Nat) → Nat
  | [] => 0
  | (k', v) :: rest => if k' = k then v else tblGet k rest

/-- The items one feed outcome contributes to `collected`. -/
def feedItems (now : String) : FeedResult → List Item
  | Except.ok entries => entries.map (toItem now)
  | Except.error _ => []

/-- The log lines one feed outcome contributes. -/
def feedErr : FeedResult → List String
  | Except.ok _ => []
  | Except.error msg => [msg]

/-! ### Lemmas: the generic stable insertion sort -/

theorem perm_insertLe {α : Type} (le : α → α → Bool) (a : α) (l : List α) :
    (insertLe le a l).Perm (a :: l) := by
  induction l with
  | nil => exact List.Perm.refl _
  | cons b bs ih =>
    simp only [insertLe]
    by_cases h : le a b
    · simp [h]
    · simp only [h, if_false]
      exact (List.Perm.cons b ih).trans (List.Perm.swap a b bs)

theorem perm_sortLe {α : Type} (le : α → α → Bool) (l : List α) :
    (sortLe le l).Perm l := by
  induction l with
  | nil => exact List.Perm.refl _
  | cons a as ih => exact (perm_insertLe le a (sortLe le as)).trans (List.Perm.cons a ih)


theorem filter_insertLe {α : Type} (le : α → α → Bool) (p : α → Bool)
    (hcl : ∀ x y, p x = true → p y = true → le x y = true) (a : α) (l : List α) :
    (insertLe le a l).filter p = if p a then a :: l.filter p else l.filter p := by
  induction l with
  | nil => cases hpa : p a <;> simp [insertLe, List.filter_cons, hpa]
  | cons b bs ih =>
    have hunf : insertLe le a (b :: bs) =
        if le a b then a :: b :: bs else b :: insertLe le a bs := rfl
    rw [hunf]
    cases hab : le a b with
    | true =>
      rw [if_pos rfl]
      simp [List.filter_cons]
    | false =>
      rw [if_neg Bool.false_ne_true]
      have hL : (b :: insertLe le a bs).filter p =
          if p b then b :: (insertLe le a bs).filter p else (insertLe le a bs).filter p :=
        List.filter_cons
      have hR : (b :: bs).filter p = if p b then b :: bs.filter p else bs.filter p :=
        List.filter_cons
      rw [hL, hR, ih]
      cases hpa : p a
      · simp
      · have hpb : p b = false := by
          cases hb : p b
          · rfl
          · have hle := hcl a b hpa hb
            rw [hab] at hle
            exact Bool.noConfusion hle
        simp [hpb]

theorem filter_sortLe {α : Type} (le : α → α → Bool) (p : α → Bool)
    (hcl : ∀ x y, p x = true → p y = true → le x y = true) (l : List α) :
    (sortLe le l).filter p = l.filter p := by
  induction l with
  | nil => rfl
  | cons a as ih =>
    have hunf : sortLe le (a :: as) = insertLe le a (sortLe le as) := rfl
    rw [hunf, filter_insertLe le p hcl a (sortLe le as), ih]
    cases hpa : p a <;> simp [List.filter_cons, hpa]

theorem pairwise_insertLe {α : Type} (le : α → α → Bool)
    (htot : ∀ x y, le x y = false → le y x = true)
    (htrans : ∀ x y z, le x y = true → le y z = true → le x z = true) (a : α) {l : List α}
    (h : l.Pairwise (fun x y => le x y = true)) :
    (insertLe le a l).Pairwise (fun x y => le x y = true) := by
  induction l with
  | nil => exact List.pairwise_singleton _ _
  | cons b bs ih =>
    rcases List.pairwise_cons.mp h with ⟨hb, hbs⟩
    have hunf : insertLe le a (b :: bs) =
        if le a b then a :: b :: bs else b :: insertLe le a bs := rfl
    rw [hunf]
    cases hab : le a b with
    | true =>
      rw [if_pos rfl]
      refine List.pairwise_cons.mpr ⟨?_, h⟩
      intro x hx
      rcases List.mem_cons.mp hx with rfl | hx'
      · exact hab
      · exact htrans a b x hab (hb x hx')
    | false =>
      rw [if_neg Bool.false_ne_true]
      refine List.pairwise_cons.mpr ⟨?_, ih hbs⟩
      intro x hx
      rcases List.mem_cons.mp ((perm_insertLe le a bs).mem_iff.mp hx) with rfl | hx'
      · exact htot x b hab
      · exact hb x hx'

theorem pairwise_sortLe {α : Type} (le : α → α → Bool)
    (htot : ∀ x y, le x y = false → le y x = true)
    (htrans : ∀ x y z, le x y = true → le y z = true → le x z = true) (l : List α) :
    (sortLe le l).Pairwise (fun x y => le x y = true) := by
  induction l with
  | nil => exact List.Pairwise.nil
  | cons a as ih => exact pairwise_insertLe le htot htrans a ih

theorem sortLe_of_pairwise {α : Type} (le : α → α → Bool) {l : List α}
    (h : l.Pairwise (fun x y => le x y = true)) : sortLe le l = l := by
  induction l with
  | nil => rfl
  | cons a as ih =>
    rcases List.pairwise_cons.mp h with ⟨ha, has⟩
    have hunf : sortLe le (a :: as) = insertLe le a (sortLe le as) := rfl
    rw [hunf, ih has]
    cases as with
    | nil => rfl
    | cons b bs =>
      have : insertLe le a (b :: bs) =
          if le a b then a :: b :: bs else b :: insertLe le a bs := rfl
      rw [this, if_pos (ha b (List.mem_cons_self b bs))]

/-! ### Lemmas: the dedup loop -/

theorem mem_dedupeAux {seen : List String} {l : List Item} {it : Item}
    (h : it ∈ dedupeAux seen l) : it ∈ l ∧ it.link ≠ "" ∧ it.link ∉ seen := by
  induction l generalizing seen with
  | nil => simp [dedupeAux] at h
  | cons x xs ih =>
    by_cases hx : x.link = "" ∨ x.link ∈ seen
    · rw [dedupeAux, if_pos hx] at h
      rcases ih h with ⟨h1, h2, h3⟩
      exact ⟨List.mem_cons_of_mem _ h1, h2, h3⟩
    · rw [dedupeAux, if_neg hx] at h
      push_neg at hx
      rcases List.mem_cons.mp h with rfl | h'
      · exact ⟨List.mem_cons_self _ _, hx.1, hx.2⟩
      · rcases ih h' with ⟨h1, h2, h3⟩
        exact ⟨List.mem_cons_of_mem _ h1, h2, fun hs => h3 (List.mem_cons_of_mem _ hs)⟩

theorem filter_dedupeAux {L : String} (hL : L ≠ "") (seen : List String) (l : List Item) :
    (dedupeAux seen l).filter (fun it => it.link == L) =
      if L ∈ seen then [] else (l.filter (fun it => it.link == L)).take 1 := by
  induction l generalizing seen with
  | nil => by_cases hs : L ∈ seen <;> simp [dedupeAux, hs]
  | cons x xs ih =>
    by_cases hx : x.link = "" ∨ x.link ∈ seen
    · rw [dedupeAux, if_pos hx, ih]
      by_cases hs : L ∈ seen
      · simp [hs]
      · have hxL : (x.link == L) = false := by
          rcases hx with hx | hx
          · exact beq_eq_false_iff_ne.mpr (fun he => hL (he ▸ hx))
          · exact beq_eq_false_iff_ne.mpr (fun he => hs (he ▸ hx))
        simp [hs, List.filter_cons, hxL]
    · rw [dedupeAux, if_neg hx]
      push_neg at hx
      by_cases hxL : x.link = L
      · have hLs : L ∉ seen := hxL ▸ hx.2
        have hmem : L ∈ x.link :: seen := hxL ▸ List.mem_cons_self _ _
        have hbeq : (x.link == L) = true := beq_iff_eq.mpr hxL
        rw [List.filter_cons, List.filter_cons, hbeq, ih]
        simp [hmem, hLs, List.take]
      · have hbeq : (x.link == L) = false := beq_eq_false_iff_ne.mpr hxL
        have hiff : (L ∈ x.link :: seen) ↔ L ∈ seen := by
          rw [List.mem_cons]
          constructor
          · rintro (h | h)
            · exact absurd h.symm hxL
            · exact h
          · exact Or.inr
        rw [List.filter_cons, List.filter_cons, hbeq]
        simp only [Bool.false_eq_true, if_false]
        rw [ih (x.link :: seen)]
        by_cases hs : L ∈ seen
        · rw [if_pos (hiff.mpr hs), if_pos hs]
        · rw [if_neg (fun h => hs (hiff.mp h)), if_neg hs]

theorem dedupeAux_links_nodup (seen : List String) (l : List Item) :
    ((dedupeAux seen l).map Item.link).Nodup := by
  induction l generalizing seen with
  | nil => simp [dedupeAux]
  | cons x xs ih =>
    by_cases hx : x.link = "" ∨ x.link ∈ seen
    · rw [dedupeAux, if_pos hx]; exact ih seen
    · rw [dedupeAux, if_neg hx]
      simp only [List.map_cons]
      refine List.nodup_cons.mpr ⟨?_, ih _⟩
      intro hmem
      rcases List.mem_map.mp hmem with ⟨y, hy, hylink⟩
      exact (mem_dedupeAux hy).2.2 (hylink ▸ List.mem_cons_self _ _)

theorem dedupeAux_eq_self : ∀ (seen : List String) (l : List Item),
    (∀ it ∈ l, it.link ≠ "") → (∀ it ∈ l, it.link ∉ seen) →
    (l.map Item.link).Nodup → dedupeAux seen l = l := by
  intro seen l
  induction l generalizing seen with
  | nil => intro _ _ _; rfl
  | cons x xs ih =>
    intro hlink hseen hnd
    have hx : ¬(x.link = "" ∨ x.link ∈ seen) := by
      push_neg
      exact ⟨hlink x (List.mem_cons_self _ _), hseen x (List.mem_cons_self _ _)⟩
    rw [dedupeAux, if_neg hx]
    have hnd' : x.link ∉ xs.map Item.link ∧ (xs.map Item.link).Nodup :=
      List.nodup_cons.mp hnd
    congr 1
    refine ih (x.link :: seen) (fun it hit => hlink it (List.mem_cons_of_mem _ hit)) ?_ hnd'.2
    intro it hit hmem
    rcases List.mem_cons.mp hmem with heq | hmem'
    · exact hnd'.1 (heq ▸ List.mem_map_of_mem Item.link hit)
    · exact hseen it (List.mem_cons_of_mem _ hit) hmem'

/-! ### Claims C2, C3, C8 — Deduplicator/Sorter -/

/-- C2: for every input sequence of Items, the Deduplicator/Sorter's
output contains, for each distinct non-empty link value present in the
input, exactly one item with that link — the first item with that link
in input order (its filter by that link is exactly the one-element
prefix of the input's filter) — and items with a missing/empty link are
dropped. -/
theorem C2_dedup_link_unique (dv : String → Int) (all : List Item) :
    (∀ it ∈ dedupeSort dv all, it.link ≠ "") ∧
      ∀ L : String, L ≠ "" →
        (dedupeSort dv all).filter (fun it => it.link == L) =
          (all.filter (fun it => it.link == L)).take 1 := by
  constructor
  · intro it hit
    have hmem : it ∈ dedupLinks all :=
      (perm_sortLe (itemLe dv) (dedupLinks all)).mem_iff.mp hit
    exact (mem_dedupeAux hmem).2.1
  · intro L hL
    have hperm := (perm_sortLe (itemLe dv) (dedupLinks all)).filter (fun it => it.link == L)
    have hded := filter_dedupeAux hL [] all
    rw [if_neg (List.not_mem_nil L)] at hded
    rw [show dedupLinks all = dedupeAux [] all from rfl, hded] at hperm
    cases h1 : all.filter (fun it => it.link == L) with
    | nil =>
      rw [h1] at hperm
      simpa using hperm.eq_nil
    | cons y ys =>
      rw [h1] at hperm
      simp only [List.take_succ_cons, List.take_zero] at hperm ⊢
      exact List.perm_singleton.mp hperm

/-- Witness for C2 at a concrete input: a duplicate link `L1` and an
empty-link item; the output keeps only the first `L1` item, and the
membership half applies to it. -/
theorem C2_dedup_link_unique_witness :
    (⟨"A", "L1", "d1", "", ""⟩ : Item).link ≠ "" ∧
      (dedupeSort (fun _ => 0)
          [⟨"A", "L1", "d1", "", ""⟩, ⟨"B", "", "d2", "", ""⟩,
           ⟨"C", "L1", "d3", "", ""⟩]).filter (fun it => it.link == "L1") =
        ([(⟨"A", "L1", "d1", "", ""⟩ : Item), ⟨"B", "", "d2", "", ""⟩,
          ⟨"C", "L1", "d3", "", ""⟩].filter (fun it => it.link == "L1")).take 1 :=
  ⟨(C2_dedup_link_unique (fun _ => 0)
      [⟨"A", "L1", "d1", "", ""⟩, ⟨"B", "", "d2", "", ""⟩, ⟨"C", "L1", "d3", "", ""⟩]).1
      ⟨"A", "L1", "d1", "", ""⟩ (by decide),
   (C2_dedup_link_unique (fun _ => 0)
      [⟨"A", "L1", "d1", "", ""⟩, ⟨"B", "", "d2", "", ""⟩, ⟨"C", "L1", "d3", "", ""⟩]).2
      "L1" (by decide)⟩

/-- C3: the Deduplicator/Sorter's date-descending sort is stable — for
any isoDate value, the subsequence of output items carrying exactly that
isoDate equals the corresponding subsequence of the deduplicated
(pre-sort) sequence, so two kept items with identical isoDate keep their
relative order. -/
theorem C3_sort_stable (dv : String → Int) (s : String) (all : List Item) :
    (dedupeSort dv all).filter (fun it => it.isoDate == s) =
      (dedupLinks all).filter (fun it => it.isoDate == s) := by
  apply filter_sortLe
  intro x y hx hy
  have hx' : x.isoDate = s := beq_iff_eq.mp hx
  have hy' : y.isoDate = s := beq_iff_eq.mp hy
  simp [itemLe, hx', hy']

/-- C8: the Deduplicator/Sorter is idempotent — applying it to its own
output returns that output unchanged. -/
theorem C8_dedupeSort_idempotent (dv : String → Int) (all : List Item) :
    dedupeSort dv (dedupeSort dv all) = dedupeSort dv all := by
  have htot : ∀ x y : Item, itemLe dv x y = false → itemLe dv y x = true := by
    intro x y h
    simp only [itemLe, decide_eq_false_iff_not, not_le] at h
    simp only [itemLe, decide_eq_true_eq]
    omega
  have htrans : ∀ x y z : Item,
      itemLe dv x y = true → itemLe dv y z = true → itemLe dv x z = true := by
    intro x y z h1 h2
    simp only [itemLe, decide_eq_true_eq] at h1 h2 ⊢
    omega
  have hperm := perm_sortLe (itemLe dv) (dedupLinks all)
  have hid : dedupLinks (sortLe (itemLe dv) (dedupLinks all)) =
      sortLe (itemLe dv) (dedupLinks all) := by
    apply dedupeAux_eq_self
    · intro it hit
      exact (mem_dedupeAux (hperm.mem_iff.mp hit)).2.1
    · intro it _
      exact List.not_mem_nil _
    · exact ((hperm.map Item.link).symm).nodup (dedupeAux_links_nodup [] all)
  show sortLe (itemLe dv) (dedupLinks (sortLe (itemLe dv) (dedupLinks all))) =
    sortLe (itemLe dv) (dedupLinks all)
  rw [hid]
  exact sortLe_of_pairwise _ (pairwise_sortLe (itemLe dv) htot htrans (dedupLinks all))

/-! ### Claim C1 — relevance-filter veto precedence -/

/-- C1: the relevance filter applies its three rules in order — a
negative-vocabulary hit drops the item unconditionally (even a trusted
host does not override it), otherwise a trusted host keeps it
unconditionally, otherwise it is kept iff a positive-vocabulary term is
present.  The boolean characterization captures all three rules and
their precedence; the closed conjuncts exhibit the "in particular" case
of an item with a negative term, a positive term and a trusted host,
which is dropped. -/
theorem C1_filter_veto_precedence :
    (∀ item : Item,
        isMRStory item =
          (!hasNegativeTerm item && (isTrustedHost item || hasPositiveTerm item))) ∧
      isMRStory ⟨"Survey market size report", "https://www.quirks.com/a", "", "", ""⟩ = false ∧
      hasNegativeTerm ⟨"Survey market size report", "https://www.quirks.com/a", "", "", ""⟩
        = true ∧
      hasPositiveTerm ⟨"Survey market size report", "https://www.quirks.com/a", "", "", ""⟩
        = true ∧
      isTrustedHost ⟨"Survey market size report", "https://www.quirks.com/a", "", "", ""⟩
        = true := by
  refine ⟨?_, by decide, by decide, by decide, by decide⟩
  intro item
  simp only [isMRStory, hasNegativeTerm, hasPositiveTerm, isTrustedHost, mrFilterText]
  cases hneg : NEGATIVE_GENERIC.any
      (fun neg => jsIncludes (jsToLower item.title ++ " " ++ jsToLower item.raw) neg)
  · cases hwl : SOURCE_WHITELIST.contains (hostname item.link) <;> simp [hneg, hwl]
  · simp [hneg]

/-! ### Claim C6 — topic classifier -/

theorem foldl_push_filter {α β : Type} (q : α → Bool) (g : α → β) :
    ∀ (l : List α) (acc : List β),
      l.foldl (fun acc x => if q x then acc ++ [g x] else acc) acc =
        acc ++ (l.filter q).map g := by
  intro l
  induction l with
  | nil => intro acc; simp
  | cons x xs ih =>
    intro acc
    simp only [List.foldl_cons, List.filter_cons]
    cases hq : q x
    · simp [ih]
    · simp [ih (acc ++ [g x])]

/-- C6: for every input string, the topic classifier returns the topics
(in taxonomy declaration order) whose keyword list hits the lower-cased
input; the result is never empty, and when no topic matches it is
exactly `["(Other)"]`. -/
theorem C6_topic_classifier (s : String) :
    tagTopics s = (if topicsOf s = [] then ["(Other)"] else topicsOf s) ∧
      tagTopics s ≠ [] := by
  have hfold : tagTopics s = if topicsOf s = [] then ["(Other)"] else topicsOf s := by
    simp only [tagTopics, topicsOf]
    rw [foldl_push_filter (fun p => p.2.any (fun kw => jsIncludes (jsToLower s) kw))
      Prod.fst TOPICS []]
    simp
  refine ⟨hfold, ?_⟩
  rw [hfold]
  by_cases h : topicsOf s = []
  · simp [h]
  · simp [h]

/-! ### Claim C5 — funding/M&A classifier -/

/-- C5 counterexample: the claim's "true iff the listed vocabulary
matches" fails on the code in both directions.  Title "Acme raises
capital" is classified funding=true by the source (regex alternative
`raises`), yet no term of the claim's vocabulary — which lists `raised`
but not `raises` — occurs in it (nor in the empty summary); conversely
"We plan to invest in tools" matches the claim's `invest` but the source
regex (which has only `invests`/`investment`) classifies it false. -/
theorem C5_funding_vocabulary_counterexample :
    isFunding "Acme raises capital" "" = true ∧
      claimFundingMatch "Acme raises capital" = false ∧
      claimFundingMatch "" = false ∧
      isFunding "We plan to invest in tools" "" = false ∧
      claimFundingMatch "We plan to invest in tools" = true := by
  decide

/-- C5 (amended): the classifier returns true iff a case-insensitive
match of the funding/M&A vocabulary — amended to (funding, raises,
raised, seed, "series [A-E]", acquire, acquisition, merger, M&A, buyout,
invests, investment, venture, vc) — succeeds against the title OR the
summary; the pipeline applies it to the post-summarization summary (an
item in the funding slice was classified on its `summary` field, which
is the summarizer's output on its raw-or-title text, not the raw text);
and the claim's two examples hold: "Acme raises $10M Series B" is
funding=true, "Global CX Market to Reach $5B by 2030" is funding=false.
-/
theorem C5_funding_detection_amended :
    (∀ title summary : String,
        isFunding title summary =
          (amendedFundingMatch title || amendedFundingMatch summary)) ∧
      (∀ (dv : String → Int) (f : String → String) (genAt : String)
          (collected : List Item) (e : EnrichedItem),
          e ∈ (runPipeline dv f genAt collected).funding_ma →
            isFunding e.title e.summary = true ∧ e.summary = f (jsOr e.raw e.title)) ∧
      isFunding "Acme raises $10M Series B" "" = true ∧
      isFunding "Global CX Market to Reach $5B by 2030" "" = false := by
  refine ⟨?_, ?_, by decide, by decide⟩
  · intro t s
    have h : ∀ u : String, isFundingText u = amendedFundingMatch u := by
      intro u
      simp only [isFundingText, amendedFundingMatch, FUNDING_TERMS_A, FUNDING_TERMS_B,
        AMENDED_FUNDING_TERMS, List.any_cons, List.any_nil]
      rw [Bool.eq_iff_iff]
      simp only [Bool.or_eq_true]
      tauto
    simp only [isFunding, h]
  · intro dv f genAt collected e he
    have he1 : e ∈ (((dedupeSort dv collected).filter isMRStory).map (enrich f)).filter
        (fun it => isFunding it.title it.summary) := List.take_subset _ _ he
    have he2 := List.mem_filter.mp he1
    obtain ⟨it, hit, rfl⟩ := List.mem_map.mp he2.1
    exact ⟨he2.2, rfl⟩

set_option maxRecDepth 4000 in
/-- Witness for the amended C5 at a concrete run: a single trusted-host
item whose title carries `raises`/`Series B` lands in `funding_ma`, and
the theorem's pipeline conjunct applies to it — its classification used
its post-summarization summary, the summarizer's output on its raw
text. -/
theorem C5_funding_detection_amended_witness :
    isFunding (enrich summarizeFallback
        ⟨"Acme raises $10M Series B survey", "https://www.quirks.com/x", "d", "",
          "Raw text"⟩).title
      (enrich summarizeFallback
        ⟨"Acme raises $10M Series B survey", "https://www.quirks.com/x", "d", "",
          "Raw text"⟩).summary = true ∧
    (enrich summarizeFallback
        ⟨"Acme raises $10M Series B survey", "https://www.quirks.com/x", "d", "",
          "Raw text"⟩).summary =
      summarizeFallback (jsOr (enrich summarizeFallback
        ⟨"Acme raises $10M Series B survey", "https://www.quirks.com/x", "d", "",
          "Raw text"⟩).raw
        (enrich summarizeFallback
          ⟨"Acme raises $10M Series B survey", "https://www.quirks.com/x", "d", "",
            "Raw text"⟩).title) :=
  C5_funding_detection_amended.2.1 (fun _ => 0) summarizeFallback "g"
    [⟨"Acme raises $10M Series B survey", "https://www.quirks.com/x", "d", "", "Raw text"⟩]
    (enrich summarizeFallback
      ⟨"Acme raises $10M Series B survey", "https://www.quirks.com/x", "d", "", "Raw text"⟩)
    (by decide)

/-! ### Claim C7 — fallback summarizer cap -/

theorem length_mk_append_ellipsis (l : List Char) :
    (String.mk l ++ "…").length = l.length + 1 := by
  show (l ++ "…".data).length = l.length + 1
  simp

/-- C7: for every input, the fallback summarizer's output is at most
240 characters; and whenever the cleaned first-one-or-two-sentence text
(`base`) exceeds the cap, the output is that text hard-truncated to 239
characters with the ellipsis appended — exactly 240 characters. -/
theorem C7_summary_cap (text : String) :
    (summarizeFallback text).length ≤ SUMMARY_MAX_CHARS ∧
      ((baseOf text).length > SUMMARY_MAX_CHARS →
        summarizeFallback text =
            String.mk ((baseOf text).data.take (SUMMARY_MAX_CHARS - 1)) ++ "…" ∧
          (summarizeFallback text).length = SUMMARY_MAX_CHARS) := by
  by_cases h0 : text = ""
  · constructor
    · simp [summarizeFallback, h0]
    · intro hb
      exfalso
      have hb' : baseOf text = "" := by rw [h0]; rfl
      rw [hb'] at hb
      simp [SUMMARY_MAX_CHARS, String.length] at hb
  · have hunf : summarizeFallback text =
        if (baseOf text).length > SUMMARY_MAX_CHARS then
          String.mk ((baseOf text).data.take (SUMMARY_MAX_CHARS - 1)) ++ "…"
        else baseOf text := by
      simp only [summarizeFallback, if_neg h0]
    by_cases hb : (baseOf text).length > SUMMARY_MAX_CHARS
    · have hlen : (String.mk ((baseOf text).data.take (SUMMARY_MAX_CHARS - 1)) ++ "…").length =
          SUMMARY_MAX_CHARS := by
        rw [length_mk_append_ellipsis, List.length_take]
        have hdl : (baseOf text).data.length = (baseOf text).length := rfl
        simp only [SUMMARY_MAX_CHARS] at hb ⊢
        omega
      rw [hunf, if_pos hb]
      exact ⟨le_of_eq hlen, fun _ => ⟨rfl, hlen⟩⟩
    · rw [hunf, if_neg hb]
      exact ⟨Nat.le_of_not_lt hb, fun hb' => absurd hb' hb⟩

set_option maxRecDepth 8000 in
/-- Witness for C7 at a concrete 250-character input: the base text
exceeds the cap, and the output is the 239-character truncation plus the
ellipsis, of length exactly 240. -/
theorem C7_summary_cap_witness :
    (baseOf (String.mk (List.replicate 250 'x'))).length > SUMMARY_MAX_CHARS ∧
      summarizeFallback (String.mk (List.replicate 250 'x')) =
          String.mk ((baseOf (String.mk (List.replicate 250 'x'))).data.take
            (SUMMARY_MAX_CHARS - 1)) ++ "…" ∧
        (summarizeFallback (String.mk (List.replicate 250 'x'))).length = SUMMARY_MAX_CHARS :=
  ⟨by decide, (C7_summary_cap (String.mk (List.replicate 250 'x'))).2 (by decide)⟩

/-! ### Claim C9 — per-feed failure isolation -/

theorem collectFeeds_foldl (now : String) :
    ∀ (results : List FeedResult) (acc : List Item × List String),
      results.foldl
        (fun acc r =>
          match r with
          | Except.ok entries => (acc.1 ++ entries.map (toItem now), acc.2)
          | Except.error msg => (acc.1, acc.2 ++ [msg])) acc =
        (acc.1 ++ results.flatMap (feedItems now), acc.2 ++ results.flatMap feedErr) := by
  intro results
  induction results with
  | nil => intro acc; simp
  | cons r rs ih =>
    intro acc
    cases r with
    | ok entries => simp [List.foldl_cons, ih, feedItems, feedErr]
    | error msg => simp [List.foldl_cons, ih, feedItems, feedErr]

theorem collectFeeds_characterization (now : String) (results : List FeedResult) :
    collectFeeds now results =
      (results.flatMap (feedItems now), results.flatMap feedErr) := by
  have h := collectFeeds_foldl now results ([], [])
  simpa [collectFeeds] using h

/-- C9: a retrieval failure of one feed is recovered locally — the
failed feed contributes no items (the collected items equal those of the
same run with that feed removed), its caught error is logged between the
surrounding feeds' logs, the rest of the run (the whole output document)
is unchanged, and the collected items are exactly the concatenation of
each listed feed outcome's own contribution, each consumed exactly once
in feed-list order (no retry). -/
theorem C9_feed_failure_isolated (dv : String → Int) (summarize : String → String)
    (genAt now msg : String) (pre post : List FeedResult) :
    (collectFeeds now (pre ++ Except.error msg :: post)).1 =
        (collectFeeds now (pre ++ post)).1 ∧
      (collectFeeds now (pre ++ Except.error msg :: post)).2 =
        (collectFeeds now pre).2 ++ msg :: (collectFeeds now post).2 ∧
      runFromFeeds dv summarize genAt now (pre ++ Except.error msg :: post) =
        runFromFeeds dv summarize genAt now (pre ++ post) ∧
      (collectFeeds now (pre ++ Except.error msg :: post)).1 =
        (pre ++ Except.error msg :: post).flatMap (feedItems now) := by
  have h1 := collectFeeds_characterization now (pre ++ Except.error msg :: post)
  have h2 := collectFeeds_characterization now (pre ++ post)
  have h3 := collectFeeds_characterization now pre
  have h4 := collectFeeds_characterization now post
  have hitems : (collectFeeds now (pre ++ Except.error msg :: post)).1 =
      (collectFeeds now (pre ++ post)).1 := by
    rw [h1, h2]
    simp [feedItems]
  refine ⟨hitems, ?_, ?_, ?_⟩
  · rw [h1, h3, h4]
    simp [feedErr]
  · unfold runFromFeeds
    rw [hitems]
  · rw [h1]

/-! ### Claim C10 — tag-or-whitespace-only raw text summarizes to "" -/

/-- C10: when the summarizer's input is non-empty but cleans (tag
stripping plus whitespace collapsing plus trim) to the empty string, the
output is the empty string; and the pipeline hands the summarizer the
item's rawText whenever that is non-empty — the title is substituted
only when rawText is empty — so an enriched item's summary can be empty.
-/
theorem C10_empty_clean_summary (text : String) (f : String → String) (it : Item) :
    (text ≠ "" → cleanOf text = "" → summarizeFallback text = "") ∧
      (it.raw ≠ "" → (enrich summarizeFallback it).summary = summarizeFallback it.raw) ∧
      (it.raw ≠ "" → cleanOf it.raw = "" →
        (enrich summarizeFallback it).summary = "") ∧
      (it.raw = "" → (enrich f it).summary = f it.title) := by
  have hmain : ∀ u : String, u ≠ "" → cleanOf u = "" → summarizeFallback u = "" := by
    intro u h0 hc
    have hb : baseOf u = "" := by
      simp [baseOf, hc]
      rfl
    simp [summarizeFallback, h0, hb]
  have henr : it.raw ≠ "" → (enrich summarizeFallback it).summary = summarizeFallback it.raw := by
    intro h
    simp [enrich, jsOr, h]
  refine ⟨hmain text, henr, ?_, ?_⟩
  · intro h hc
    rw [henr h]
    exact hmain it.raw h hc
  · intro h
    simp [enrich, jsOr, h]

/-- Witness for C10: the raw text `"<p> </p>"` is non-empty but cleans
to the empty string, so the fallback summary — and hence the enriched
item's summary — is the empty string; and an item with empty raw text
gets its title summarized instead. -/
theorem C10_empty_clean_summary_witness :
    summarizeFallback "<p> </p>" = "" ∧
      (enrich summarizeFallback ⟨"T", "", "", "", "<p> </p>"⟩).summary = "" ∧
      (enrich summarizeFallback ⟨"T2", "", "", "", ""⟩).summary = summarizeFallback "T2" :=
  ⟨(C10_empty_clean_summary "<p> </p>" id ⟨"T", "", "", "", "<p> </p>"⟩).1
      (by decide) (by decide),
   (C10_empty_clean_summary "x" summarizeFallback ⟨"T", "", "", "", "<p> </p>"⟩).2.2.1
      (by decide) (by decide),
   (C10_empty_clean_summary "x" summarizeFallback ⟨"T2", "", "", "", ""⟩).2.2.2 (by decide)⟩

/-! ### Claim C4 — lemmas about the comparator -/

theorem lexLe_refl : ∀ a : List Char, lexLe a a = true := by
  intro a
  induction a with
  | nil => rfl
  | cons c cs ih => simp [lexLe, ih]

theorem lexLe_total : ∀ a b : List Char, lexLe a b = false → lexLe b a = true := by
  intro a
  induction a with
  | nil => intro b h; exact absurd h (by simp [lexLe])
  | cons c cs ih =>
    intro b h
    cases b with
    | nil => rfl
    | cons d ds =>
      simp only [lexLe, Bool.or_eq_false_iff, Bool.and_eq_false_iff,
        decide_eq_false_iff_not] at h
      obtain ⟨h1, h2⟩ := h
      simp only [lexLe, Bool.or_eq_true, Bool.and_eq_true, decide_eq_true_eq, beq_iff_eq]
      rcases h2 with h2 | h2
      · rcases lt_trichotomy c d with hlt | heq | hgt
        · exact absurd hlt h1
        · exact absurd (beq_iff_eq.mpr heq) (by simp [h2])
        · exact Or.inl hgt
      · rcases lt_trichotomy c d with hlt | heq | hgt
        · exact absurd hlt h1
        · subst heq
          exact Or.inr ⟨rfl, ih ds h2⟩
        · exact Or.inl hgt

theorem lexLe_trans : ∀ a b c : List Char,
    lexLe a b = true → lexLe b c = true → lexLe a c = true := by
  intro a
  induction a with
  | nil => intro b c _ _; rfl
  | cons x xs ih =>
    intro b c h1 h2
    cases b with
    | nil => exact absurd h1 (by simp [lexLe])
    | cons y ys =>
      cases c with
      | nil => exact absurd h2 (by simp [lexLe])
      | cons z zs =>
        simp only [lexLe, Bool.or_eq_true, Bool.and_eq_true, decide_eq_true_eq,
          beq_iff_eq] at h1 h2 ⊢
        rcases h1 with h1 | ⟨h1e, h1l⟩
        · rcases h2 with h2 | ⟨h2e, h2l⟩
          · exact Or.inl (lt_trans h1 h2)
          · exact Or.inl (h2e ▸ h1)
        · rcases h2 with h2 | ⟨h2e, h2l⟩
          · exact Or.inl (h1e ▸ h2)
          · exact Or.inr ⟨h1e.trans h2e, ih ys zs h1l h2l⟩

theorem lexLe_antisymm : ∀ a b : List Char,
    lexLe a b = true → lexLe b a = true → a = b := by
  intro a
  induction a with
  | nil =>
    intro b _ h2
    cases b with
    | nil => rfl
    | cons d ds => exact absurd h2 (by simp [lexLe])
  | cons c cs ih =>
    intro b h1 h2
    cases b with
    | nil => exact absurd h1 (by simp [lexLe])
    | cons d ds =>
      simp only [lexLe, Bool.or_eq_true, Bool.and_eq_true, decide_eq_true_eq,
        beq_iff_eq] at h1 h2
      rcases h1 with h1 | ⟨h1e, h1l⟩
      · rcases h2 with h2 | ⟨h2e, h2l⟩
        · exact absurd h2 (lt_asymm h1)
        · exact absurd h1 (h2e ▸ lt_irrefl d)
      · rcases h2 with h2 | ⟨h2e, h2l⟩
        · exact absurd h2 (h1e ▸ lt_irrefl c)
        · rw [h1e, ih ds h1l h2l]

theorem entryLe_total : ∀ a b : String × Nat, entryLe a b = false → entryLe b a = true := by
  intro a b h
  simp only [entryLe, Bool.or_eq_false_iff, Bool.and_eq_false_iff,
    decide_eq_false_iff_not, not_lt] at h
  simp only [entryLe, Bool.or_eq_true, Bool.and_eq_true, decide_eq_true_eq]
  obtain ⟨h1, h2⟩ := h
  rcases h2 with h2 | h2
  · exact Or.inl (by omega)
  · by_cases he : a.2 = b.2
    · exact Or.inr ⟨he.symm, lexLe_total _ _ h2⟩
    · exact Or.inl (by omega)

theorem entryLe_trans : ∀ a b c : String × Nat,
    entryLe a b = true → entryLe b c = true → entryLe a c = true := by
  intro a b c h1 h2
  simp only [entryLe, Bool.or_eq_true, Bool.and_eq_true, decide_eq_true_eq] at h1 h2 ⊢
  rcases h1 with h1 | ⟨h1e, h1l⟩
  · rcases h2 with h2 | ⟨h2e, h2l⟩
    · exact Or.inl (by omega)
    · exact Or.inl (by omega)
  · rcases h2 with h2 | ⟨h2e, h2l⟩
    · exact Or.inl (by omega)
    · exact Or.inr ⟨by omega, lexLe_trans _ _ _ h1l h2l⟩

theorem entryLe_antisymm : ∀ a b : String × Nat,
    entryLe a b = true → entryLe b a = true → a = b := by
  intro a b h1 h2
  simp only [entryLe, Bool.or_eq_true, Bool.and_eq_true, decide_eq_true_eq] at h1 h2
  rcases h1 with h1 | ⟨h1e, h1l⟩
  · rcases h2 with h2 | ⟨h2e, h2l⟩
    · omega
    · omega
  · rcases h2 with h2 | ⟨h2e, h2l⟩
    · omega
    · exact Prod.ext (congrArg String.mk (lexLe_antisymm _ _ h1l h2l)) (by omega)

/-! ### Claim C4 — lemmas about the frequency table -/

theorem tblGet_bump_self (w : String) : ∀ m : List (String × Nat),
    tblGet w (bump m w) = tblGet w m + 1 := by
  intro m
  induction m with
  | nil => simp [bump, tblGet]
  | cons e rest ih =>
    obtain ⟨k, v⟩ := e
    by_cases h : k = w
    · subst h; simp [bump, tblGet]
    · simp [bump, tblGet, h, ih]

theorem tblGet_bump_other {w k : String} (h : k ≠ w) : ∀ m : List (String × Nat),
    tblGet k (bump m w) = tblGet k m := by
  intro m
  induction m with
  | nil =>
    simp only [bump, tblGet]
    rw [if_neg (fun he : w = k => h he.symm)]
  | cons e rest ih =>
    obtain ⟨k', v⟩ := e
    simp only [bump]
    by_cases h' : k' = w
    · have hne : ¬k' = k := fun he => h (he ▸ h')
      rw [if_pos h']
      simp only [tblGet]
      rw [if_neg hne, if_neg hne]
    · rw [if_neg h']
      simp only [tblGet]
      by_cases h'' : k' = k
      · rw [if_pos h'', if_pos h'']
      · rw [if_neg h'', if_neg h'', ih]

theorem tblGet_foldl_bump (k : String) : ∀ (l : List String) (m : List (String × Nat)),
    tblGet k (l.foldl bump m) = tblGet k m + l.count k := by
  intro l
  induction l with
  | nil => intro m; simp
  | cons w ws ih =>
    intro m
    rw [List.foldl_cons, ih, List.count_cons]
    by_cases h : w = k
    · subst h
      rw [tblGet_bump_self]
      have hbeq : (w == w) = true := beq_iff_eq.mpr rfl
      rw [hbeq, if_pos rfl]
      omega
    · rw [tblGet_bump_other (fun he => h he.symm)]
      have hbeq : (w == k) = false := beq_eq_false_iff_ne.mpr h
      rw [hbeq]
      simp

theorem mem_keys_bump (w k : String) : ∀ m : List (String × Nat),
    (k ∈ (bump m w).map Prod.fst ↔ k ∈ m.map Prod.fst ∨ k = w) := by
  intro m
  induction m with
  | nil => simp [bump]
  | cons e rest ih =>
    obtain ⟨k', v⟩ := e
    by_cases h : k' = w
    · subst h; simp [bump]; tauto
    · simp [bump, h, ih]; tauto

theorem nodup_keys_bump (w : String) : ∀ m : List (String × Nat),
    (m.map Prod.fst).Nodup → ((bump m w).map Prod.fst).Nodup := by
  intro m
  induction m with
  | nil => intro _; simp [bump]
  | cons e rest ih =>
    obtain ⟨k', v⟩ := e
    intro hnd
    rw [List.map_cons] at hnd
    obtain ⟨hk', hrest⟩ := List.nodup_cons.mp hnd
    by_cases h : k' = w
    · subst h
      simpa [bump] using hnd
    · simp only [bump, if_neg h, List.map_cons]
      refine List.nodup_cons.mpr ⟨?_, ih hrest⟩
      intro hmem
      rcases (mem_keys_bump w k' rest).mp hmem with hm | hm
      · exact hk' hm
      · exact h hm

theorem mem_keys_foldl_bump (k : String) : ∀ (l : List String) (m : List (String × Nat)),
    (k ∈ (l.foldl bump m).map Prod.fst ↔ k ∈ m.map Prod.fst ∨ k ∈ l) := by
  intro l
  induction l with
  | nil => intro m; simp
  | cons w ws ih =>
    intro m
    rw [List.foldl_cons, ih, mem_keys_bump]
    simp [List.mem_cons]
    tauto

theorem nodup_keys_foldl_bump : ∀ (l : List String) (m : List (String × Nat)),
    (m.map Prod.fst).Nodup → ((l.foldl bump m).map Prod.fst).Nodup := by
  intro l
  induction l with
  | nil => intro m h; exact h
  | cons w ws ih =>
    intro m h
    exact ih (bump m w) (nodup_keys_bump w m h)

theorem entry_eq_tblGet : ∀ m : List (String × Nat), (m.map Prod.fst).Nodup →
    ∀ e ∈ m, e.2 = tblGet e.1 m := by
  intro m
  induction m with
  | nil => intro _ e he; exact absurd he (List.not_mem_nil e)
  | cons x rest ih =>
    obtain ⟨k, v⟩ := x
    intro hnd e he
    rw [List.map_cons] at hnd
    obtain ⟨hk, hrest⟩ := List.nodup_cons.mp hnd
    rcases List.mem_cons.mp he with rfl | he'
    · simp [tblGet]
    · have hmm2 : e.1 ∈ rest.map Prod.fst := List.mem_map.mpr ⟨e, he', rfl⟩
      have hne : e.1 ≠ k := fun heq => hk (heq ▸ hmm2)
      have hstep : tblGet e.1 ((k, v) :: rest) = tblGet e.1 rest := by
        simp only [tblGet]
        rw [if_neg (fun h : k = e.1 => hne h.symm)]
      rw [hstep]
      exact ih hrest e he'

theorem tbl_eq_keys_map (g : String → Nat) : ∀ m : List (String × Nat),
    (∀ e ∈ m, e.2 = g e.1) → m = (m.map Prod.fst).map (fun k => (k, g k)) := by
  intro m
  induction m with
  | nil => intro _; rfl
  | cons e rest ih =>
    intro h
    rw [List.map_cons, List.map_cons, ← ih (fun e' he' => h e' (List.mem_cons_of_mem _ he'))]
    have he : e.2 = g e.1 := h e (List.mem_cons_self _ _)
    rw [show (e.1, g e.1) = e from Prod.ext rfl he.symm]

theorem mem_distinctAux (k : String) : ∀ (seen l : List String),
    (k ∈ distinctAux seen l ↔ k ∈ l ∧ k ∉ seen) := by
  intro seen l
  induction l generalizing seen with
  | nil => simp [distinctAux]
  | cons w ws ih =>
    by_cases hw : w ∈ seen
    · rw [distinctAux, if_pos hw, ih]
      constructor
      · rintro ⟨h1, h2⟩
        exact ⟨List.mem_cons_of_mem _ h1, h2⟩
      · rintro ⟨h1, h2⟩
        rcases List.mem_cons.mp h1 with rfl | h1'
        · exact absurd hw h2
        · exact ⟨h1', h2⟩
    · rw [distinctAux, if_neg hw]
      constructor
      · intro hmem
        rcases List.mem_cons.mp hmem with rfl | hmem'
        · exact ⟨List.mem_cons_self _ _, hw⟩
        · obtain ⟨h1, h2⟩ := (ih (w :: seen)).mp hmem'
          exact ⟨List.mem_cons_of_mem _ h1, fun hs => h2 (List.mem_cons_of_mem _ hs)⟩
      · rintro ⟨h1, h2⟩
        rcases List.mem_cons.mp h1 with rfl | h1'
        · exact List.mem_cons_self _ _
        · by_cases hkw : k = w
          · exact hkw ▸ List.mem_cons_self _ _
          · refine List.mem_cons_of_mem _ ((ih (w :: seen)).mpr ⟨h1', ?_⟩)
            intro hs
            rcases List.mem_cons.mp hs with h | h
            · exact hkw h
            · exact h2 h

theorem nodup_distinctAux : ∀ (seen l : List String), (distinctAux seen l).Nodup := by
  intro seen l
  induction l generalizing seen with
  | nil => exact List.Pairwise.nil
  | cons w ws ih =>
    by_cases hw : w ∈ seen
    · rw [distinctAux, if_pos hw]; exact ih seen
    · rw [distinctAux, if_neg hw]
      refine List.nodup_cons.mpr ⟨?_, ih _⟩
      intro hmem
      exact ((mem_distinctAux w (w :: seen) ws).mp hmem).2 (List.mem_cons_self _ _)

theorem foldl_foldl_flatMap {α β γ : Type} (f : α → List β) (g : γ → β → γ) :
    ∀ (l : List α) (init : γ),
      l.foldl (fun acc x => (f x).foldl g acc) init = (l.flatMap f).foldl g init := by
  intro l
  induction l with
  | nil => intro init; rfl
  | cons x xs ih =>
    intro init
    rw [List.foldl_cons, List.flatMap_cons, List.foldl_append, ih]

/-! ### Claim C4 — the discard rules and the ranker -/

theorem allow_short_not_numeric (w : String) (hw : ALLOW_SHORT.contains w = true) :
    isNumericTok w = false := by
  have hm : w ∈ ALLOW_SHORT := by simpa using hw
  fin_cases hm <;> decide

theorem tokenKeep_eq (w : String) : hashtagTokenKept w = claimTokenKeep w := by
  simp only [hashtagTokenKept, claimTokenKeep]
  cases hal : ALLOW_SHORT.contains w
  · rw [Bool.eq_iff_iff]
    simp only [Bool.and_eq_true, Bool.or_eq_true, Bool.not_eq_true', Bool.not_eq_false,
      Bool.and_eq_false_iff, Bool.or_eq_false_iff]
    tauto
  · have hnum := allow_short_not_numeric w hal
    simp [hnum]

theorem sorted_table_eq (tks : List String) :
    sortLe entryLe (tks.foldl bump []) =
      sortLe entryLe ((distinctTokens tks).map (fun w => (w, tks.count w))) := by
  have hkeysnd : ((tks.foldl bump []).map Prod.fst).Nodup :=
    nodup_keys_foldl_bump tks [] (by simp)
  have hentry : ∀ e ∈ tks.foldl bump [], e.2 = tks.count e.1 := by
    intro e he
    have h1 := entry_eq_tblGet _ hkeysnd e he
    rw [h1, tblGet_foldl_bump]
    simp [tblGet]
  have htbl : tks.foldl bump [] =
      ((tks.foldl bump []).map Prod.fst).map (fun k => (k, tks.count k)) :=
    tbl_eq_keys_map _ _ hentry
  have hkeysperm : ((tks.foldl bump []).map Prod.fst).Perm (distinctTokens tks) := by
    have hnd2 : (distinctTokens tks).Nodup := nodup_distinctAux [] tks
    rw [List.perm_ext_iff_of_nodup hkeysnd hnd2]
    intro k
    have hmd : k ∈ distinctTokens tks ↔ k ∈ tks ∧ k ∉ ([] : List String) :=
      mem_distinctAux k [] tks
    rw [mem_keys_foldl_bump, hmd]
    simp
  have hperm : (tks.foldl bump []).Perm
      ((distinctTokens tks).map (fun w => (w, tks.count w))) := by
    rw [htbl]
    exact hkeysperm.map (fun k => (k, tks.count k))
  letI : IsAntisymm (String × Nat) (fun a b => entryLe a b = true) := ⟨entryLe_antisymm⟩
  have hp : (sortLe entryLe (tks.foldl bump [])).Perm
      (sortLe entryLe ((distinctTokens tks).map (fun w => (w, tks.count w)))) :=
    (perm_sortLe _ _).trans (hperm.trans (perm_sortLe _ _).symm)
  have hs1 : (sortLe entryLe (tks.foldl bump [])).Sorted (fun a b => entryLe a b = true) :=
    pairwise_sortLe entryLe entryLe_total entryLe_trans _
  have hs2 : (sortLe entryLe ((distinctTokens tks).map
      (fun w => (w, tks.count w)))).Sorted (fun a b => entryLe a b = true) :=
    pairwise_sortLe entryLe entryLe_total entryLe_trans _
  exact List.eq_of_perm_of_sorted hp hs1 hs2

/-- C4: the Hashtag Ranker computes exactly the claim's algorithm —
tokenize each title (truncated at its " - " publisher-suffix separator,
lower-cased, non-alphanumeric/non-hash characters spaced out), discard
stop-words, purely numeric tokens, short tokens outside the acronym
allow-list, bare domains and country/company-suffix fragments, rank the
distinct remaining tokens by frequency descending with ties broken by
ascending token text, keep tokens of length ≥ 4 or allow-listed, cap at
the top 20, and render; and empty input yields empty output. -/
theorem C4_hashtag_ranker (items : List EnrichedItem) :
    makeHashtags items = hashtagsSpec items ∧
      makeHashtags ([] : List EnrichedItem) = [] := by
  refine ⟨?_, rfl⟩
  have hfun : (fun it : EnrichedItem => (tokenizeTitle it.title).filter hashtagTokenKept) =
      (fun it => (tokenizeTitle it.title).filter claimTokenKeep) :=
    funext (fun it => List.filter_congr (fun w _ => tokenKeep_eq w))
  have hstream : hashtagFreq items =
      (items.flatMap
        (fun it => (tokenizeTitle it.title).filter claimTokenKeep)).foldl bump [] := by
    show items.foldl
        (fun m it => ((tokenizeTitle it.title).filter hashtagTokenKept).foldl bump m) [] = _
    rw [foldl_foldl_flatMap
      (fun it => (tokenizeTitle it.title).filter hashtagTokenKept) bump items [], hfun]
  simp only [makeHashtags, hashtagsSpec]
  rw [hstream, sorted_table_eq]
